import Mathlib

/-!
# Verification of `compare_frd_files.py`

A shallow embedding, in Lean 4, of the core of the `acs_avaps_compare`
repository (single source file `compare_frd_files.py`), together with
theorems settling the frozen claims about its specification.

Modelling conventions:
* Python floats are modelled as exact rationals (`ℚ`); the IEEE NaN values
  returned for empty statistics are modelled as `Option.none`.
* A whitespace-split token of a data line is modelled by the observations the
  program makes of it: `isdigit` (Python `str.isdigit()`), `toFloat`
  (`float(tok)`, `none` when that raises `ValueError`), and `isIX`
  (the token is exactly the two-character string `IX`).
* A physical line is modelled by the observations made of it after
  `line.strip()`: whether the stripped line starts with the characters `IX`
  (`startsIX`, Python `line.startswith('IX')`), and its whitespace-split
  token list (`toks`).
* Python dictionaries keyed by rational time are modelled as a `Table`:
  the list of keys in insertion order plus a lookup function.
* Filenames and timestamp strings in the pairing code are modelled as
  `List Char`, with the three regular-expression searches of
  `extract_timestamp` implemented directly (they are fixed-width patterns,
  so no backtracking is involved).
-/

namespace CompareFrd

/-- The five extracted parameters of `COLUMNS_TO_EXTRACT` /`THRESHOLDS`:
pressure, temperature, relative humidity and the two wind components. -/
inductive Param where
  | P
  | T
  | RH
  | U
  | V
  deriving DecidableEq, Repr

/-- `COLUMNS_TO_EXTRACT`: the 0-based column of each parameter in a data row. -/
def colIndex : Param → Nat
  | .P => 2
  | .T => 3
  | .RH => 4
  | .U => 8
  | .V => 9

/-- The iteration order of the `COLUMNS_TO_EXTRACT` dictionary (its insertion
order, which Python guarantees): P, T, RH, U, V. -/
def columnsList : List Param := [.P, .T, .RH, .U, .V]

/-- `THRESHOLDS`: the per-parameter comparison thresholds. -/
def THRESHOLDS : Param → ℚ
  | .P => 1
  | .T => 1/5
  | .RH => 5
  | .U => 1
  | .V => 1

/-- `INVALID_DATA_VALUE`: the sentinel marking an invalid reading. -/
def INVALID_DATA_VALUE : ℚ := -999

/-- One whitespace-delimited token of a data line, modelled by the
observations the program makes of it. -/
structure Tok where
  isdigit : Bool
  toFloat : Option ℚ
  isIX : Bool
  deriving DecidableEq, Repr

/-- A token that Python's `float` parses to the rational `q`
(and that is not a digit string), e.g. `"3.25"`. -/
def numTok (q : ℚ) : Tok := ⟨false, some q, false⟩

/-- A non-negative integer token, e.g. `"17"`: `isdigit` holds and
`float` parses it. -/
def intTok (n : Nat) : Tok := ⟨true, some n, false⟩

/-- A token `float` rejects with `ValueError`, e.g. `"***"`. -/
def badTok : Tok := ⟨false, none, false⟩

/-- The literal token `"IX"`. -/
def ixTok : Tok := ⟨false, none, true⟩

/-- One input line, modelled by the observations made of its stripped text:
`startsIX` is Python's `line.startswith('IX')` after `strip()`, and `toks`
is `line.split()`. -/
structure Line where
  startsIX : Bool
  toks : List Tok
  deriving DecidableEq, Repr

/-- The table built by `parse_frd_file`: a Python dict from quantized time to
a dict from parameter to value, modelled as the key list (in insertion order)
plus the lookup function. -/
structure Table where
  keys : List ℚ
  val : ℚ → Param → Option ℚ

/-- The empty table (`defaultdict(dict)` before any store). -/
def Table.empty : Table := ⟨[], fun _ _ => none⟩

/-- `data[key][label] = value`: store one value, creating the key if new. -/
def Table.store (tbl : Table) (t : ℚ) (p : Param) (v : ℚ) : Table :=
  ⟨if t ∈ tbl.keys then tbl.keys else tbl.keys ++ [t],
   fun t' p' => if t' = t ∧ p' = p then some v else tbl.val t' p'⟩

/-- Python's `round` to the nearest integer, ties to even (banker's
rounding), on exact rationals. -/
def roundHalfEven (x : ℚ) : ℤ :=
  if x - ⌊x⌋ < 1/2 then ⌊x⌋
  else if (1 : ℚ)/2 < x - ⌊x⌋ then ⌊x⌋ + 1
  else if ⌊x⌋ % 2 = 0 then ⌊x⌋ else ⌊x⌋ + 1

/-- `round(time_s, 2)`: quantization of the time key to 2 decimal places. -/
def round2 (q : ℚ) : ℚ := (roundHalfEven (100 * q) : ℚ) / 100

/-- `float(parts[i])`: `none` models the `ValueError` / `IndexError` that the
row-level `try` of `parse_frd_file` catches. -/
def tokFloat (parts : List Tok) (i : Nat) : Option ℚ :=
  match parts.get? i with
  | some tok => tok.toFloat
  | none => none

/-- The inner `for label, index in COLUMNS_TO_EXTRACT.items()` loop of
`parse_frd_file`. A `none` from `tokFloat` models the exception: it aborts
the remainder of the loop (the row), keeping the stores already made. -/
def storeLoop : List Param → List Tok → ℚ → Table → Table
  | [], _, _, tbl => tbl
  | p :: rest, parts, key, tbl =>
    match tokFloat parts (colIndex p) with
    | none => tbl
    | some v =>
      storeLoop rest parts key
        (if |v - INVALID_DATA_VALUE| > 1/10 then tbl.store key p v else tbl)

/-- Processing of one qualifying data row: parse the time at column 1
(failure skips the whole row), then run the store loop on the quantized key. -/
def processRow (parts : List Tok) (tbl : Table) : Table :=
  match tokFloat parts 1 with
  | none => tbl
  | some time_s => storeLoop columnsList parts (round2 time_s) tbl

/-- `len(parts) > 9 and parts[0].isdigit()`: the data-row guard. -/
def isDataRow (parts : List Tok) : Bool :=
  match parts with
  | t0 :: _ => decide (parts.length > 9) && t0.isdigit
  | [] => false

/-- The line loop of `parse_frd_file`: `started` is `data_section_started`. -/
def parseLines : List Line → Bool → Table → Table
  | [], _, tbl => tbl
  | l :: rest, started, tbl =>
    if l.startsIX then parseLines rest true tbl
    else if started && isDataRow l.toks then parseLines rest started (processRow l.toks tbl)
    else parseLines rest started tbl

/-- `parse_frd_file`, on the line list of an opened file. -/
def parse_frd_file (lines : List Line) : Table := parseLines lines false Table.empty

/-! ## Statistics and `compare_data` -/

/-- The statistics tuple computed by `compare_data` (and duplicated by the
global-summary block of `main`): total count, mean, min, max, population
variance, within-threshold count and percentage.  `numpy`'s NaN results on an
empty list are modelled as `none`; `numpy.std` is the square root of
`variance`, so two results have equal standard deviations exactly when their
`variance` fields are equal. -/
structure Stats where
  total : Nat
  mean : Option ℚ
  minv : Option ℚ
  maxv : Option ℚ
  variance : Option ℚ
  within : Nat
  percent : ℚ
  deriving DecidableEq, Repr

/-- Running-minimum step used to model `numpy.min` over a list. -/
def optMin (o : Option ℚ) (x : ℚ) : Option ℚ :=
  match o with
  | none => some x
  | some y => some (min y x)

/-- Running-maximum step used to model `numpy.max` over a list. -/
def optMax (o : Option ℚ) (x : ℚ) : Option ℚ :=
  match o with
  | none => some x
  | some y => some (max y x)

/-- `numpy.min` of a list (`none` on the empty list). -/
def listMin (l : List ℚ) : Option ℚ := l.foldl optMin none

/-- `numpy.max` of a list (`none` on the empty list). -/
def listMax (l : List ℚ) : Option ℚ := l.foldl optMax none

/-- `abs(d) <= threshold`: the within-threshold test of line 110. -/
def withinThr (thr d : ℚ) : Bool := decide (|d| ≤ thr)

/-- Lines 100–113 of `compare_data`: the statistics of a non-empty
difference list (the empty case is returned separately at lines 96–98). -/
def statsOf (l : List ℚ) (thr : ℚ) : Stats :=
  ⟨l.length,
   some (l.sum / l.length),
   listMin l,
   listMax l,
   some ((l.map (fun x => (x - l.sum / l.length) ^ 2)).sum / l.length),
   l.countP (withinThr thr),
   ((l.countP (withinThr thr) : ℚ) / l.length) * 100⟩

/-- The full statistics step of `compare_data`: the early return
`(0, nan, nan, nan, nan, 0, 0.0)` on an empty list, else `statsOf`. -/
def diffStats (l : List ℚ) (thr : ℚ) : Stats :=
  if l = [] then ⟨0, none, none, none, none, 0, 0⟩ else statsOf l thr

/-- `sorted(set(data1.keys()) & set(data2.keys()))`: the sorted list of
distinct common time keys. -/
def commonTimeSteps (d1 d2 : Table) : List ℚ :=
  List.insertionSort (fun a b => a ≤ b) ((d1.keys.filter (fun t => t ∈ d2.keys)).dedup)

/-- The difference list of `compare_data`: for each common time step, when
both parameter values are present, `val1 - val2` (File 1 − File 2). -/
def diffList (d1 d2 : Table) (p : Param) : List ℚ :=
  (commonTimeSteps d1 d2).filterMap fun t =>
    match d1.val t p, d2.val t p with
    | some v1, some v2 => some (v1 - v2)
    | _, _ => none

/-- `compare_data(data1, data2, parameter, threshold)`: the statistics
(tuple components 0–6) together with the raw difference list (component 7). -/
def compare_data (d1 d2 : Table) (p : Param) (thr : ℚ) : Stats × List ℚ :=
  (diffStats (diffList d1 d2 p) thr, diffList d1 d2 p)

/-! ## The global summary of `main` (lines 311–326) -/

/-- `global_diffs[param].extend(stats[7])`, applied over the pairs in
processing order: the accumulated global difference list. -/
def globalAccum (perPair : List (List ℚ)) : List ℚ :=
  perPair.foldl (fun acc d => acc ++ d) []

/-- Lines 311–326 of `main` for one parameter: skip (`none`) when the
accumulated list is empty, else the same statistics formulas as
`compare_data`, written out again as the source duplicates them. -/
def globalSummary (perPair : List (List ℚ)) (thr : ℚ) : Option Stats :=
  if globalAccum perPair = [] then none
  else
    some ⟨(globalAccum perPair).length,
          some ((globalAccum perPair).sum / (globalAccum perPair).length),
          listMin (globalAccum perPair),
          listMax (globalAccum perPair),
          some (((globalAccum perPair).map
              (fun x => (x - (globalAccum perPair).sum / (globalAccum perPair).length) ^ 2)).sum /
            (globalAccum perPair).length),
          (globalAccum perPair).countP (withinThr thr),
          (((globalAccum perPair).countP (withinThr thr) : ℚ) / (globalAccum perPair).length) * 100⟩

/-! ## `extract_timestamp` (filename regular expressions)

The three patterns `D(\d{8}_\d{6})_PQC\.frd`, `-\d{8}T(\d{6})` and
`-(\d{8})H1` are fixed-width, so `re.search` is: try to match at each
position from the left, return the capture of the first position that
matches.  Filenames are `List Char`; `\d` is modelled as `Char.isDigit`
(the filenames at issue are ASCII). -/

/-- Match exactly `n` digit characters, returning them and the rest. -/
def matchDigits : Nat → List Char → Option (List Char × List Char)
  | 0, cs => some ([], cs)
  | _ + 1, [] => none
  | n + 1, c :: cs =>
    if c.isDigit then (matchDigits n cs).map (fun p => (c :: p.1, p.2))
    else none

/-- Match a literal character sequence, returning the rest of the input. -/
def matchLit : List Char → List Char → Option (List Char)
  | [], cs => some cs
  | _ :: _, [] => none
  | l :: ls, c :: cs => if c = l then matchLit ls cs else none

/-- The literal `_PQC.frd` tail of the scheme-A pattern. -/
def pqcFrd : List Char := ['_', 'P', 'Q', 'C', '.', 'f', 'r', 'd']

/-- Match `D(\d{8}_\d{6})_PQC\.frd` at the head of the input, returning the
captured `\d{8}_\d{6}` group. -/
def matchAvapsAt (cs : List Char) : Option (List Char) :=
  match cs with
  | [] => none
  | c :: rest =>
    if c = 'D' then
      match matchDigits 8 rest with
      | none => none
      | some (d, r1) =>
        match r1 with
        | '_' :: r2 =>
          match matchDigits 6 r2 with
          | none => none
          | some (t, r3) =>
            match matchLit pqcFrd r3 with
            | some _ => some (d ++ '_' :: t)
            | none => none
        | _ => none
    else none

/-- `re.search` for the scheme-A pattern: leftmost match wins. -/
def searchAvaps : List Char → Option (List Char)
  | [] => none
  | c :: cs =>
    match matchAvapsAt (c :: cs) with
    | some g => some g
    | none => searchAvaps cs

/-- Match `-\d{8}T(\d{6})` at the head of the input, returning the captured
6-digit time. -/
def matchAcsTimeAt (cs : List Char) : Option (List Char) :=
  match cs with
  | [] => none
  | c :: rest =>
    if c = '-' then
      match matchDigits 8 rest with
      | none => none
      | some (_, r1) =>
        match r1 with
        | c2 :: r2 =>
          if c2 = 'T' then (matchDigits 6 r2).map (fun p => p.1) else none
        | [] => none
    else none

/-- `re.search` for `-\d{8}T(\d{6})`. -/
def searchAcsTime : List Char → Option (List Char)
  | [] => none
  | c :: cs =>
    match matchAcsTimeAt (c :: cs) with
    | some g => some g
    | none => searchAcsTime cs

/-- Match `-(\d{8})H1` at the head of the input, returning the captured
8-digit date. -/
def matchAcsDateAt (cs : List Char) : Option (List Char) :=
  match cs with
  | [] => none
  | c :: rest =>
    if c = '-' then
      match matchDigits 8 rest with
      | none => none
      | some (d, r1) =>
        match r1 with
        | 'H' :: '1' :: _ => some d
        | _ => none
    else none

/-- `re.search` for `-(\d{8})H1`. -/
def searchAcsDate : List Char → Option (List Char)
  | [] => none
  | c :: cs =>
    match matchAcsDateAt (c :: cs) with
    | some g => some g
    | none => searchAcsDate cs

/-- `extract_timestamp(filename)`: the scheme-A search first; otherwise both
scheme-B searches must succeed, giving `date + '_' + time`; else `None`. -/
def extract_timestamp (cs : List Char) : Option (List Char) :=
  match searchAvaps cs with
  | some g => some g
  | none =>
    match searchAcsTime cs with
    | some t => (searchAcsDate cs).map (fun d => d ++ '_' :: t)
    | none => none

/-! ## File discovery (lines 192–200 of `main`) -/

/-- `filename.endswith(".frd")`. -/
def endsFrd (f : List Char) : Bool := (matchLit ['d', 'r', 'f', '.'] f.reverse).isSome

/-- `filename.startswith('D')`. -/
def headIsD (f : List Char) : Bool :=
  match f with
  | c :: _ => c = 'D'
  | [] => false

/-- A timestamp-keyed dictionary of files, modelled as a lookup function.
The stored value is the filename; the path only prefixes the fixed
directory, so filenames and paths are in bijection within one run. -/
def FileMap := List Char → Option (List Char)

/-- Dictionary assignment `m[ts] = f`. -/
def updMap (m : FileMap) (ts f : List Char) : FileMap :=
  fun ts' => if ts' = ts then some f else m ts'

/-- The discovery loop: for each listed filename ending in `.frd` whose
timestamp extracts, assign it into the AVAPS map (name starts with `D`) or
the ACS map (otherwise).  Later files overwrite earlier ones per key. -/
def collectFrom : List (List Char) → FileMap → FileMap → FileMap × FileMap
  | [], mA, mB => (mA, mB)
  | f :: rest, mA, mB =>
    if endsFrd f then
      match extract_timestamp f with
      | some ts =>
        if headIsD f then collectFrom rest (updMap mA ts f) mB
        else collectFrom rest mA (updMap mB ts f)
      | none => collectFrom rest mA mB
    else collectFrom rest mA mB

/-- `(avaps_files, acs_files)` built from the directory listing. -/
def collectFiles (files : List (List Char)) : FileMap × FileMap :=
  collectFrom files (fun _ => none) (fun _ => none)

/-- A file qualifies for the AVAPS map under timestamp `ts`. -/
def qualifiesA (ts f : List Char) : Bool :=
  endsFrd f && headIsD f && decide (extract_timestamp f = some ts)

/-- A file qualifies for the ACS map under timestamp `ts`. -/
def qualifiesB (ts f : List Char) : Bool :=
  endsFrd f && !headIsD f && decide (extract_timestamp f = some ts)

/-! ## Candidate matching (lines 204–220 of `main`) -/

/-- Python `str.split('_')` on character lists (separators kept as empty
pieces, exactly as in Python). -/
def splitUS : List Char → List (List Char)
  | [] => [[]]
  | c :: cs =>
    if c = '_' then [] :: splitUS cs
    else
      match splitUS cs with
      | h :: t => (c :: h) :: t
      | [] => [[c]]

/-- The numeric value of a digit string (most significant first). -/
def digitsToNat (cs : List Char) : Nat :=
  cs.foldl (fun n c => 10 * n + (c.toNat - '0'.toNat)) 0

/-- Python `int(s)` restricted to the digit strings arising here: `none`
models the `ValueError` on anything else. -/
def strToNat (cs : List Char) : Option Nat :=
  if cs ≠ [] ∧ cs.all Char.isDigit then some (digitsToNat cs) else none

/-- `date_part, time_part = ts.split('_'); int(time_part)`: `none` models the
`ValueError` of either the unpacking or the conversion.  The date part stays
a string, exactly as in the source (dates are compared as strings). -/
def parseTs (ts : List Char) : Option (List Char × Nat) :=
  match splitUS ts with
  | [d, h] => (strToNat h).map (fun n => (d, n))
  | _ => none

/-- `avaps_date_part, avaps_time_part = avaps_ts.split('_')`: the tuple
unpacking succeeds exactly when the split has two pieces. -/
def splitTwo (ts : List Char) : Option (List Char × List Char) :=
  match splitUS ts with
  | [d, h] => some (d, h)
  | _ => none

/-- The inner loop over `avaps_files.keys()`: append each AVAPS timestamp
with the same date portion whose time-of-day integer differs by at most 1.
A `none` from `splitTwo` or `strToNat` models the exception, which aborts
the rest of the loop (entries appended so far are kept in
`acs_timestamp_mapping`); as in the source, `int(avaps_time_part)` is only
reached when the date portions are equal. -/
def candLoop : List (List Char) → List Char → Nat → List (List Char)
  | [], _, _ => []
  | b :: rest, date, tsec =>
    match splitTwo b with
    | none => []
    | some (bd, btStr) =>
      if bd = date then
        match strToNat btStr with
        | none => []
        | some bt =>
          if ((bt : ℤ) - (tsec : ℤ)).natAbs ≤ 1 then b :: candLoop rest date tsec
          else candLoop rest date tsec
      else candLoop rest date tsec

/-- `acs_timestamp_mapping`: for each ACS timestamp that parses, the list of
candidate AVAPS timestamps (an ACS timestamp that raises gets no entry). -/
def buildMapping (acsKeys avapsKeys : List (List Char)) : List (List Char × List (List Char)) :=
  acsKeys.filterMap fun a =>
    match parseTs a with
    | none => none
    | some (ad, asec) => some (a, candLoop avapsKeys ad asec)

/-- The date part of a well-formed `date_time` timestamp string. -/
def dateOf (ts : List Char) : List Char :=
  match splitUS ts with
  | [d, _] => d
  | _ => []

/-- The integer time part of a well-formed `date_time` timestamp string. -/
def timeOf (ts : List Char) : Nat :=
  match splitUS ts with
  | [_, h] => digitsToNat h
  | _ => 0

/-- Well-formedness of a canonical timestamp `\d{8}_\d{6}` — the shape of
every string `extract_timestamp` returns. -/
def wfTs (ts : List Char) : Bool :=
  match splitUS ts with
  | [d, h] => decide (d.length = 8) && d.all Char.isDigit && decide (h.length = 6) && h.all Char.isDigit
  | _ => false

/-! ## The pair loop with duplicate suppression (lines 222–290 of `main`) -/

/-- The order-independent pair key `tuple(sorted((path1, path2)))`: two keys
are equal exactly when the unordered path pairs are equal, which `Sym2`
models directly. -/
def PairKey := Sym2 (List Char)

instance : DecidableEq PairKey := fun a b => Sym2.instDecidableEq a b

/-- The selection among candidates (lines 230–241): the exact timestamp match
if present, else the first candidate. -/
def selectAvaps (acs_ts : List Char) (hd : List Char) (lst : List (List Char)) : List Char :=
  match lst.find? (fun t => t = acs_ts) with
  | some t => t
  | none => hd

/-- The comparison loop of `main`: walk `acs_timestamp_mapping` in order,
resolve each candidate list to one AVAPS file, form the unordered pair key,
and (lines 251/290) run a comparison only for keys not in `compared_pairs`,
adding the key afterwards in either branch.  The returned list holds the
pair keys of the comparisons performed, in order. -/
def batchLoop : List (List Char × List (List Char)) → FileMap → FileMap →
    List PairKey → List PairKey → List PairKey
  | [], _, _, _, acc => acc.reverse
  | (acs_ts, lst) :: rest, acsMap, avapsMap, compared, acc =>
    match acsMap acs_ts with
    | none => batchLoop rest acsMap avapsMap compared acc
    | some file2 =>
      match lst with
      | [] => batchLoop rest acsMap avapsMap compared acc
      | hd :: _ =>
        match avapsMap (selectAvaps acs_ts hd lst) with
        | none => batchLoop rest acsMap avapsMap compared acc
        | some file1 =>
          let k : PairKey := Sym2.mk (file1, file2)
          if k ∈ compared then batchLoop rest acsMap avapsMap compared acc
          else batchLoop rest acsMap avapsMap (k :: compared) (k :: acc)

/-- The pair keys of the comparisons one batch run performs. -/
def comparisonsPerformed (entries : List (List Char × List (List Char)))
    (acsMap avapsMap : FileMap) : List PairKey :=
  batchLoop entries acsMap avapsMap [] []

/-! ## Helper lemmas and example inputs for the parser claims -/

/-- Invariant: every value stored in a table is farther than 0.1 from the
sentinel. -/
def TableOK (tbl : Table) : Prop :=
  ∀ t p v, tbl.val t p = some v → |v - INVALID_DATA_VALUE| > 1/10

theorem tableOK_empty : TableOK Table.empty := by
  intro t p v h
  simp [Table.empty] at h

theorem tableOK_store {tbl : Table} (h : TableOK tbl) {key : ℚ} {p : Param} {v : ℚ}
    (hv : |v - INVALID_DATA_VALUE| > 1/10) : TableOK (tbl.store key p v) := by
  intro t q w hw
  simp only [Table.store] at hw
  by_cases hc : t = key ∧ q = p
  · simp [hc] at hw
    simpa [hw] using hv
  · simp [hc] at hw
    exact h t q w hw

theorem tableOK_storeLoop (ps : List Param) (parts : List Tok) (key : ℚ) {tbl : Table}
    (h : TableOK tbl) : TableOK (storeLoop ps parts key tbl) := by
  induction ps generalizing tbl with
  | nil => simpa [storeLoop] using h
  | cons p rest ih =>
    simp only [storeLoop]
    split
    · exact h
    · split
      next hv => exact ih (tableOK_store h hv)
      next => exact ih h

theorem tableOK_processRow (parts : List Tok) {tbl : Table} (h : TableOK tbl) :
    TableOK (processRow parts tbl) := by
  simp only [processRow]
  cases hf : tokFloat parts 1 with
  | none => exact h
  | some t => exact tableOK_storeLoop _ _ _ h

theorem tableOK_parseLines (lines : List Line) (started : Bool) {tbl : Table}
    (h : TableOK tbl) : TableOK (parseLines lines started tbl) := by
  induction lines generalizing started tbl with
  | nil => simpa [parseLines] using h
  | cons l rest ih =>
    simp only [parseLines]
    by_cases hIX : l.startsIX
    · simpa [hIX] using ih true h
    · by_cases hrow : started && isDataRow l.toks
      · simpa [hIX, hrow] using ih started (tableOK_processRow l.toks h)
      · simpa [hIX, hrow] using ih started h

/-- The header line `IX  t (s)  P (mb) ...` (only its observations matter). -/
def markerLine : Line := ⟨true, [ixTok]⟩

/-- A fully parseable data row
`1  5.0  1000.0  20.0  50.0  0 0 0  1.0  2.0`. -/
def goodRow : List Tok :=
  [intTok 1, numTok 5, numTok 1000, numTok 20, numTok 50,
   numTok 0, numTok 0, numTok 0, numTok 1, numTok 2]

/-- A data row whose temperature column (index 3) fails to parse as a float
while every other extracted column parses:
`1  5.0  1000.0  ***  50.0  0 0 0  1.0  2.0`. -/
def badTempRow : List Tok :=
  [intTok 1, numTok 5, numTok 1000, badTok, numTok 50,
   numTok 0, numTok 0, numTok 0, numTok 1, numTok 2]

/-- A line holding `goodRow`. -/
def goodLine : Line := ⟨false, goodRow⟩

/-- A line holding `badTempRow`. -/
def badTempLine : Line := ⟨false, badTempRow⟩

/-- The store made for one parameter whose column parsed successfully:
the sentinel check, then the store. -/
def storeStep (parts : List Tok) (key : ℚ) (tbl : Table) (p : Param) : Table :=
  match tokFloat parts (colIndex p) with
  | none => tbl
  | some v => if |v - INVALID_DATA_VALUE| > 1/10 then tbl.store key p v else tbl

/-- C1 (amended): in a data row, the parameters actually stored are exactly
the longest prefix of the enumeration order whose columns all parse; the
first parsing failure skips that value and every later parameter of the row,
while keeping what the row already stored. -/
theorem claim1_row_prefix_stored (ps : List Param) (parts : List Tok) (key : ℚ) (tbl : Table) :
    storeLoop ps parts key tbl =
      (ps.takeWhile fun p => (tokFloat parts (colIndex p)).isSome).foldl
        (storeStep parts key) tbl := by
  induction ps generalizing tbl with
  | nil => rfl
  | cons p rest ih =>
    simp only [storeLoop, List.takeWhile_cons]
    cases hf : tokFloat parts (colIndex p) with
    | none => simp [hf]
    | some v =>
      have hstep : storeStep parts key tbl p =
          if |v - INVALID_DATA_VALUE| > 1/10 then tbl.store key p v else tbl := by
        simp [storeStep, hf]
      simp [hf, hstep, ih]

/-- C1 (counterexample): in `badTempRow` the U column parses (to `1.0`),
yet after the temperature column fails nothing further of the row is read:
`U` is absent from the table while the earlier `P` was stored. -/
theorem claim1_counterexample :
    tokFloat badTempRow (colIndex Param.U) = some 1 ∧
    (parse_frd_file [markerLine, badTempLine]).val 5 Param.U = none ∧
    (parse_frd_file [markerLine, badTempLine]).val 5 Param.P = some 1000 := by
  refine ⟨by decide, ?_, ?_⟩ <;> with_unfolding_all rfl

/-- C3: no value within 0.1 (absolute) of the sentinel `-999.0` is ever
stored in the table `parse_frd_file` returns. -/
theorem claim3_no_sentinel_in_table (lines : List Line) (t : ℚ) (p : Param) (v : ℚ)
    (h : (parse_frd_file lines).val t p = some v) :
    |v - INVALID_DATA_VALUE| > 1/10 :=
  tableOK_parseLines lines false tableOK_empty t p v h

/-- C3 (witness): the file `[markerLine, goodLine]` stores `P = 1000` at
time 5, and the theorem yields its distance from the sentinel. -/
theorem claim3_witness : |(1000 : ℚ) - INVALID_DATA_VALUE| > 1/10 :=
  claim3_no_sentinel_in_table [markerLine, goodLine] 5 Param.P 1000 (by with_unfolding_all rfl)

/-- C8 (amended): every line before the first line whose stripped text
starts with the characters `IX` is ignored: dropping such a preamble does
not change the parsed table. -/
theorem claim8_preamble_ignored (pre rest : List Line)
    (h : ∀ l ∈ pre, l.startsIX = false) :
    parse_frd_file (pre ++ rest) = parse_frd_file rest := by
  induction pre with
  | nil => rfl
  | cons l pre' ih =>
    have hl : l.startsIX = false := h l (List.mem_cons_self l pre')
    have h' : ∀ l' ∈ pre', l'.startsIX = false := fun l' hm => h l' (List.mem_cons_of_mem l hm)
    show parseLines ((l :: pre') ++ rest) false Table.empty = parse_frd_file rest
    simp only [List.cons_append, parseLines, hl, Bool.false_eq_true, if_false,
      Bool.false_and]
    exact ih h'

/-- C8 (witness): a plain front-matter line before the header is ignored. -/
theorem claim8_witness :
    parse_frd_file ([⟨false, [badTok]⟩] ++ [markerLine, goodLine]) =
      parse_frd_file [markerLine, goodLine] :=
  claim8_preamble_ignored [⟨false, [badTok]⟩] [markerLine, goodLine] (by decide)

/-- A line whose stripped text starts with `IX` but whose first token is
`IXX`, not the exact token `IX` (e.g. the text `IXX`). -/
def ixxLine : Line := ⟨true, [badTok]⟩

/-- The first whitespace-delimited token of a line is exactly `IX`. -/
def firstTokIX (l : Line) : Bool :=
  match l.toks with
  | t :: _ => t.isIX
  | [] => false

/-- C8 (counterexample): in the file `[ixxLine, goodLine, markerLine]` the
only line whose first token is exactly `IX` is the last one, yet the data
row before it contributes `P = 1000` at time 5 — because the code tests
`line.startswith('IX')`, which the `IXX` line already satisfies. -/
theorem claim8_counterexample :
    firstTokIX ixxLine = false ∧ firstTokIX goodLine = false ∧
    firstTokIX markerLine = true ∧
    (parse_frd_file [ixxLine, goodLine, markerLine]).val 5 Param.P = some 1000 := by
  refine ⟨by decide, by decide, by decide, ?_⟩
  with_unfolding_all rfl

/-! ## Claims C6 and C7: `compare_data` statistics -/

/-- C6: on an empty comparable-difference list, `compare_data` returns total
count 0, within-threshold count 0, percentage 0, and `none` (NaN) for mean,
min, max and variance (hence standard deviation); on a non-empty list —
in particular when every difference exceeds the threshold — the total count
is positive, so the two situations are distinguishable. -/
theorem claim6_empty_diffs (d1 d2 : Table) (p : Param) (thr : ℚ) :
    (diffList d1 d2 p = [] →
      compare_data d1 d2 p thr = (⟨0, none, none, none, none, 0, 0⟩, [])) ∧
    (diffList d1 d2 p ≠ [] → 0 < (compare_data d1 d2 p thr).1.total) := by
  constructor
  · intro h
    simp [compare_data, diffStats, h]
  · intro h
    have ht : (compare_data d1 d2 p thr).1.total = (diffList d1 d2 p).length := by
      simp [compare_data, diffStats, h, statsOf]
    rw [ht]
    exact List.length_pos.mpr h

/-- Table A of the worked scenario of §8 of the spec:
`{10.0: {P: 1000.0}, 10.25: {P: 999.0}}`. -/
def exTableA : Table :=
  ⟨[10, 41/4], fun t p =>
    if t = 10 ∧ p = Param.P then some 1000
    else if t = 41/4 ∧ p = Param.P then some 999
    else none⟩

/-- Table B of the worked scenario of §8 of the spec:
`{10.0: {P: 999.5}, 10.25: {P: 1000.0}}`. -/
def exTableB : Table :=
  ⟨[10, 41/4], fun t p =>
    if t = 10 ∧ p = Param.P then some (1999/2)
    else if t = 41/4 ∧ p = Param.P then some 1000
    else none⟩

/-- C6 (witness): empty tables give the zero/NaN result, and the scenario
tables give a positive total. -/
theorem claim6_witness :
    compare_data Table.empty Table.empty Param.P 1 = (⟨0, none, none, none, none, 0, 0⟩, []) ∧
    0 < (compare_data exTableA exTableB Param.P 1).1.total :=
  ⟨(claim6_empty_diffs Table.empty Table.empty Param.P 1).1 (by with_unfolding_all rfl),
   (claim6_empty_diffs exTableA exTableB Param.P 1).2
     (of_decide_eq_true (by with_unfolding_all rfl))⟩

theorem commonTimeSteps_comm (d1 d2 : Table) :
    commonTimeSteps d1 d2 = commonTimeSteps d2 d1 := by
  have mem12 : ∀ t : ℚ, t ∈ commonTimeSteps d1 d2 ↔ t ∈ d1.keys ∧ t ∈ d2.keys := by
    intro t
    simp [commonTimeSteps, (List.perm_insertionSort _ _).mem_iff]
  have mem21 : ∀ t : ℚ, t ∈ commonTimeSteps d2 d1 ↔ t ∈ d2.keys ∧ t ∈ d1.keys := by
    intro t
    simp [commonTimeSteps, (List.perm_insertionSort _ _).mem_iff]
  have nd12 : (commonTimeSteps d1 d2).Nodup :=
    ((List.perm_insertionSort _ _).nodup_iff).mpr (List.nodup_dedup _)
  have nd21 : (commonTimeSteps d2 d1).Nodup :=
    ((List.perm_insertionSort _ _).nodup_iff).mpr (List.nodup_dedup _)
  have hperm : List.Perm (commonTimeSteps d1 d2) (commonTimeSteps d2 d1) := by
    rw [List.perm_ext_iff_of_nodup nd12 nd21]
    intro t
    rw [mem12 t, mem21 t, and_comm]
  exact List.eq_of_perm_of_sorted hperm
    (List.sorted_insertionSort _ _) (List.sorted_insertionSort _ _)

theorem diffList_swap (d1 d2 : Table) (p : Param) :
    diffList d2 d1 p = (diffList d1 d2 p).map (fun x => -x) := by
  unfold diffList
  rw [commonTimeSteps_comm d2 d1]
  generalize commonTimeSteps d1 d2 = l
  induction l with
  | nil => rfl
  | cons t rest ih =>
    simp only [List.filterMap_cons]
    cases h1 : d1.val t p <;> cases h2 : d2.val t p <;>
      simp [h1, h2, ih, neg_sub]

theorem sum_map_negQ (l : List ℚ) : (l.map fun x => -x).sum = -l.sum := by
  induction l with
  | nil => simp
  | cons x rest ih => simp [ih]; ring

/-- C7: when the set of common timestamps with both parameter values present
is non-empty, the mean of `compare_data d1 d2` is the negation of the mean of
`compare_data d2 d1`. -/
theorem claim7_mean_antisymm (d1 d2 : Table) (p : Param) (thr : ℚ)
    (h : diffList d1 d2 p ≠ []) :
    ∃ m : ℚ, (compare_data d1 d2 p thr).1.mean = some m ∧
      (compare_data d2 d1 p thr).1.mean = some (-m) := by
  refine ⟨(diffList d1 d2 p).sum / ((diffList d1 d2 p).length : ℚ), ?_, ?_⟩
  · simp [compare_data, diffStats, h, statsOf]
  · have h3 : List.map (fun x => -x) (diffList d1 d2 p) ≠ [] := by
      simpa using h
    simp only [compare_data, diffStats, diffList_swap d1 d2 p, if_neg h3, statsOf]
    rw [sum_map_negQ, List.length_map, neg_div]

/-- C7 (witness): on the spec's worked scenario the means are `∓ 1/4`. -/
theorem claim7_witness :
    (compare_data exTableA exTableB Param.P 1).1.mean = some (-(1/4)) ∧
    (compare_data exTableB exTableA Param.P 1).1.mean = some (1/4) := by
  obtain ⟨m, h1, h2⟩ := claim7_mean_antisymm exTableA exTableB Param.P 1
    (of_decide_eq_true (by with_unfolding_all rfl))
  have hc : (compare_data exTableA exTableB Param.P 1).1.mean = some (-(1/4)) := by
    with_unfolding_all rfl
  have hm : m = -(1/4) := by
    rw [h1] at hc
    exact Option.some_inj.mp hc
  subst hm
  refine ⟨h1, ?_⟩
  rw [h2]
  norm_num

/-! ## Claim C2: the global summary equals the statistics of the
concatenation, independently of pair order -/

instance : RightCommutative optMin := by
  constructor
  intro b a1 a2
  cases b with
  | none => simp [optMin, min_comm]
  | some y => simp [optMin, min_right_comm]

instance : RightCommutative optMax := by
  constructor
  intro b a1 a2
  cases b with
  | none => simp [optMax, max_comm]
  | some y =>
    simp only [optMax, Option.some.injEq]
    exact sup_right_comm y a1 a2

theorem listMin_perm {l1 l2 : List ℚ} (h : List.Perm l1 l2) : listMin l1 = listMin l2 :=
  h.foldl_eq none

theorem listMax_perm {l1 l2 : List ℚ} (h : List.Perm l1 l2) : listMax l1 = listMax l2 :=
  h.foldl_eq none

theorem globalAccum_eq_flatten (ls : List (List ℚ)) : globalAccum ls = ls.flatten := by
  suffices hgen : ∀ acc : List ℚ, ls.foldl (fun a d => a ++ d) acc = acc ++ ls.flatten by
    simpa [globalAccum] using hgen []
  induction ls with
  | nil => simp
  | cons d rest ih =>
    intro acc
    simp [ih (acc ++ d)]

theorem flatten_perm {ls ls' : List (List ℚ)} (h : List.Perm ls ls') :
    List.Perm ls.flatten ls'.flatten := by
  induction h with
  | nil => exact List.Perm.refl _
  | cons x _ ih =>
    simpa [List.flatten_cons] using ih.append_left x
  | swap x y l =>
    simp only [List.flatten_cons]
    rw [← List.append_assoc, ← List.append_assoc]
    exact (List.perm_append_comm).append_right l.flatten
  | trans _ _ ih1 ih2 => exact ih1.trans ih2

/-- The `statsOf` formulas only depend on the multiset of differences. -/
theorem statsOf_perm {l1 l2 : List ℚ} (h : List.Perm l1 l2) (thr : ℚ) :
    statsOf l1 thr = statsOf l2 thr := by
  have hlen : l1.length = l2.length := h.length_eq
  have hsum : l1.sum = l2.sum := h.sum_eq
  have hcnt : l1.countP (withinThr thr) = l2.countP (withinThr thr) := h.countP_eq _
  have hvar : (l1.map (fun x => (x - l1.sum / l1.length) ^ 2)).sum =
      (l2.map (fun x => (x - l2.sum / l2.length) ^ 2)).sum := by
    rw [hsum, hlen]
    exact (h.map _).sum_eq
  simp only [statsOf]
  rw [hvar, hsum, hlen, hcnt, listMin_perm h, listMax_perm h]

/-- C2: the global summary of `main` over the per-pair raw difference lists
accumulated in processing order is (a) invariant under any reordering of the
pairs and (b), whenever the accumulated list is non-empty, equal to the
statistics that `compare_data`'s statistics step produces on the
concatenation of all pairs' difference lists.  (Standard deviations agree
exactly when the `variance` fields agree.) -/
theorem claim2_global_summary (ls ls' : List (List ℚ)) (thr : ℚ)
    (h : List.Perm ls ls') :
    globalSummary ls thr = globalSummary ls' thr ∧
    (globalAccum ls ≠ [] →
      globalSummary ls thr = some (diffStats (globalAccum ls) thr)) := by
  have hge : ∀ms : List (List ℚ), globalSummary ms thr =
      if globalAccum ms = [] then none else some (statsOf (globalAccum ms) thr) :=
    fun ms => rfl
  have hacc : List.Perm (globalAccum ls) (globalAccum ls') := by
    rw [globalAccum_eq_flatten, globalAccum_eq_flatten]
    exact flatten_perm h
  constructor
  · rw [hge ls, hge ls']
    by_cases hnil : globalAccum ls = []
    · have hnil' : globalAccum ls' = [] := (hnil ▸ hacc).symm.eq_nil
      rw [if_pos hnil, if_pos hnil']
    · have hnil' : globalAccum ls' ≠ [] := fun hc => hnil ((hc ▸ hacc).eq_nil)
      rw [if_neg hnil, if_neg hnil', statsOf_perm hacc]
  · intro hnil
    rw [hge ls, if_neg hnil]
    simp only [diffStats, if_neg hnil]

/-- C2 (witness): a concrete reordering of two per-pair difference lists. -/
theorem claim2_witness :
    globalSummary [[1], [2, 3]] 1 = globalSummary [[2, 3], [1]] 1 ∧
    globalSummary [[1], [2, 3]] 1 = some (diffStats (globalAccum [[1], [2, 3]]) 1) :=
  ⟨(claim2_global_summary [[1], [2, 3]] [[2, 3], [1]] 1
      (of_decide_eq_true (by with_unfolding_all rfl))).1,
   (claim2_global_summary [[1], [2, 3]] [[2, 3], [1]] 1
      (of_decide_eq_true (by with_unfolding_all rfl))).2
      (of_decide_eq_true (by with_unfolding_all rfl))⟩

/-! ## Claim C4: the candidate-link condition of the pair-matching step -/

theorem wf_split (ts : List Char) (h : wfTs ts = true) :
    ∃ d hh, splitUS ts = [d, hh] ∧ dateOf ts = d ∧ timeOf ts = digitsToNat hh ∧
      strToNat hh = some (digitsToNat hh) ∧ d.length = 8 ∧ hh.length = 6 := by
  unfold wfTs at h
  rcases hs : splitUS ts with _ | ⟨d, _ | ⟨hh, _ | ⟨x, rest⟩⟩⟩ <;> rw [hs] at h
  · simp at h
  · simp at h
  · simp only [Bool.and_eq_true, decide_eq_true_eq, List.all_eq_true] at h
    obtain ⟨⟨⟨h1, h2⟩, h3⟩, h4⟩ := h
    refine ⟨d, hh, rfl, by simp [dateOf, hs], by simp [timeOf, hs], ?_, h1, h3⟩
    have hne : hh ≠ [] := by
      intro hc
      rw [hc] at h3
      simp at h3
    have hall : hh.all Char.isDigit = true := List.all_eq_true.mpr h4
    simp [strToNat, hne, hall]
  · simp at h

theorem candLoop_mem (keys : List (List Char)) (date : List Char) (tsec : ℕ)
    (hb : ∀ t ∈ keys, wfTs t = true) (b : List Char) :
    (b ∈ candLoop keys date tsec ↔
      b ∈ keys ∧ dateOf b = date ∧ ((timeOf b : ℤ) - (tsec : ℤ)).natAbs ≤ 1) := by
  induction keys with
  | nil => simp [candLoop]
  | cons c rest ih =>
    have hc := hb c (List.mem_cons_self c rest)
    obtain ⟨d, hh, hs, hd, ht, hn, _, _⟩ := wf_split c hc
    have hb' : ∀ t ∈ rest, wfTs t = true := fun t htm => hb t (List.mem_cons_of_mem c htm)
    have hsplit2 : splitTwo c = some (d, hh) := by simp [splitTwo, hs]
    simp only [candLoop, hsplit2]
    by_cases hdate : d = date
    · rw [if_pos hdate]
      simp only [hn]
      by_cases htime : ((digitsToNat hh : ℤ) - (tsec : ℤ)).natAbs ≤ 1
      · rw [if_pos htime]
        by_cases hbc : b = c
        · subst hbc
          simp [ih hb', hd, hdate, ht, htime]
        · simp [List.mem_cons, hbc, ih hb']
      · rw [if_neg htime]
        by_cases hbc : b = c
        · subst hbc
          simp [ih hb', hd, ht, htime]
        · simp [List.mem_cons, hbc, ih hb']
    · rw [if_neg hdate]
      by_cases hbc : b = c
      · subst hbc
        simp [ih hb', hd, hdate]
      · simp [List.mem_cons, hbc, ih hb']

/-- C4: for well-formed timestamp keys, the mapping built by the matching
step has an entry for every ACS timestamp, and an AVAPS timestamp is a
candidate for it exactly when the 8-digit date portions are equal (as
strings) and the 6-digit time portions, read as literal base-10 integers,
differ by at most 1. -/
theorem claim4_candidate_iff (acsKeys avapsKeys : List (List Char)) (a b : List Char)
    (ha : wfTs a = true) (hb : ∀ t ∈ avapsKeys, wfTs t = true) (hmem : a ∈ acsKeys) :
    (a, candLoop avapsKeys (dateOf a) (timeOf a)) ∈ buildMapping acsKeys avapsKeys ∧
    (b ∈ candLoop avapsKeys (dateOf a) (timeOf a) ↔
      b ∈ avapsKeys ∧ dateOf b = dateOf a ∧
        ((timeOf b : ℤ) - (timeOf a : ℤ)).natAbs ≤ 1) := by
  constructor
  · obtain ⟨d, hh, hs, hd, ht, hn, _, _⟩ := wf_split a ha
    have hp : parseTs a = some (dateOf a, timeOf a) := by
      simp [parseTs, hs, hn, hd, ht]
    apply List.mem_filterMap.mpr
    exact ⟨a, hmem, by simp [hp]⟩
  · exact candLoop_mem avapsKeys (dateOf a) (timeOf a) hb b

/-- An example ACS canonical timestamp. -/
def tsExA : List Char := "20230101_120000".toList

/-- An example AVAPS canonical timestamp one second later. -/
def tsExB : List Char := "20230101_120001".toList

/-- C4 (witness): `tsExB` is a candidate for `tsExA` (same date, times one
apart). -/
theorem claim4_witness : tsExB ∈ candLoop [tsExB] (dateOf tsExA) (timeOf tsExA) :=
  ((claim4_candidate_iff [tsExA] [tsExB] tsExA tsExB (by decide) (by decide)
      (by decide)).2).mpr ⟨by decide, by decide, by decide⟩

/-! ## Claim C5: each unordered pair of files is compared at most once -/

theorem batchLoop_nodup (entries : List (List Char × List (List Char)))
    (acsMap avapsMap : FileMap) :
    ∀ compared acc : List PairKey, acc.Nodup → (∀ k ∈ acc, k ∈ compared) →
      (batchLoop entries acsMap avapsMap compared acc).Nodup := by
  induction entries with
  | nil =>
    intro compared acc h1 _
    simpa [batchLoop] using h1
  | cons e rest ih =>
    intro compared acc h1 h2
    obtain ⟨acs_ts, lst⟩ := e
    simp only [batchLoop]
    cases hA : acsMap acs_ts with
    | none => exact ih compared acc h1 h2
    | some file2 =>
      dsimp only
      cases lst with
      | nil => exact ih compared acc h1 h2
      | cons hd tl =>
        dsimp only
        cases hV : avapsMap (selectAvaps acs_ts hd (hd :: tl)) with
        | none => exact ih compared acc h1 h2
        | some file1 =>
          dsimp only
          by_cases hk : Sym2.mk (file1, file2) ∈ compared
          · simp only [if_pos hk]
            exact ih compared acc h1 h2
          · simp only [if_neg hk]
            refine ih _ _ (List.nodup_cons.mpr ⟨fun hc => hk (h2 _ hc), h1⟩) ?_
            intro k' hk'
            rcases List.mem_cons.mp hk' with h | h
            · exact h ▸ List.mem_cons_self _ _
            · exact List.mem_cons_of_mem _ (h2 k' h)

/-- C5: in one batch run, the list of comparisons performed never contains
two entries with equal unordered file-path pair keys: the guard on
`compared_pairs` makes the performed pair keys pairwise distinct, whatever
the discovered maps and candidate mapping are. -/
theorem claim5_pairs_compared_once (entries : List (List Char × List (List Char)))
    (acsMap avapsMap : FileMap) :
    (comparisonsPerformed entries acsMap avapsMap).Nodup :=
  batchLoop_nodup entries acsMap avapsMap [] [] List.nodup_nil (by simp)

/-! ## Claim C9: later files of a scheme silently replace earlier ones -/

/-- `match o with | some x => some x | none => d`: dictionary fallback. -/
def orFallback (o d : Option (List Char)) : Option (List Char) :=
  match o with
  | some x => some x
  | none => d

theorem orFallback_none (o : Option (List Char)) : orFallback o none = o := by
  cases o <;> rfl

theorem orFallback_idem (o d' : Option (List Char)) (x : List Char) :
    orFallback (orFallback o (some x)) d' = orFallback o (some x) := by
  cases o <;> rfl

theorem getLast?_cons_eq (f : List Char) (l : List (List Char)) :
    (f :: l).getLast? = orFallback l.getLast? (some f) := by
  cases l with
  | nil => rfl
  | cons g l' =>
    rw [List.getLast?_cons_cons]
    cases h : (g :: l').getLast? with
    | none =>
      have : (g :: l').getLast?.isSome = true := List.getLast?_isSome.mpr (by simp)
      rw [h] at this
      simp at this
    | some x => rfl

theorem collectFrom_spec (files : List (List Char)) :
    ∀ (mA mB : FileMap) (ts : List Char),
      (collectFrom files mA mB).1 ts =
        orFallback ((files.filter (qualifiesA ts)).getLast?) (mA ts) ∧
      (collectFrom files mA mB).2 ts =
        orFallback ((files.filter (qualifiesB ts)).getLast?) (mB ts) := by
  induction files with
  | nil =>
    intro mA mB ts
    simp [collectFrom, orFallback]
  | cons f fs ih =>
    intro mA mB ts
    simp only [collectFrom]
    by_cases hfrd : endsFrd f = true
    · rw [if_pos hfrd]
      cases hx : extract_timestamp f with
      | none =>
        have hqA : qualifiesA ts f = false := by simp [qualifiesA, hx]
        have hqB : qualifiesB ts f = false := by simp [qualifiesB, hx]
        dsimp only
        rw [List.filter_cons_of_neg (by simp [hqA]), List.filter_cons_of_neg (by simp [hqB])]
        exact ih mA mB ts
      | some tsf =>
        dsimp only
        by_cases hD : headIsD f = true
        · rw [if_pos hD]
          have hqB : qualifiesB ts f = false := by simp [qualifiesB, hD]
          obtain ⟨ih1, ih2⟩ := ih (updMap mA tsf f) mB ts
          refine ⟨?_, ?_⟩
          · rw [ih1]
            by_cases hts : ts = tsf
            · subst hts
              have hqA : qualifiesA ts f = true := by simp [qualifiesA, hfrd, hD, hx]
              rw [List.filter_cons_of_pos hqA, getLast?_cons_eq, orFallback_idem]
              simp [updMap]
            · have hne : tsf ≠ ts := fun hc => hts hc.symm
              have hqA : qualifiesA ts f = false := by simp [qualifiesA, hx, hne]
              rw [List.filter_cons_of_neg (by simp [hqA])]
              simp [updMap, hts]
          · rw [ih2, List.filter_cons_of_neg (by simp [hqB])]
        · rw [if_neg hD]
          have hqA : qualifiesA ts f = false := by simp [qualifiesA, hD]
          obtain ⟨ih1, ih2⟩ := ih mA (updMap mB tsf f) ts
          refine ⟨?_, ?_⟩
          · rw [ih1, List.filter_cons_of_neg (by simp [hqA])]
          · rw [ih2]
            by_cases hts : ts = tsf
            · subst hts
              have hqB : qualifiesB ts f = true := by simp [qualifiesB, hfrd, hD, hx]
              rw [List.filter_cons_of_pos hqB, getLast?_cons_eq, orFallback_idem]
              simp [updMap]
            · have hne : tsf ≠ ts := fun hc => hts hc.symm
              have hqB : qualifiesB ts f = false := by simp [qualifiesB, hx, hne]
              rw [List.filter_cons_of_neg (by simp [hqB])]
              simp [updMap, hts]
    · rw [if_neg hfrd]
      have hqA : qualifiesA ts f = false := by simp [qualifiesA, hfrd]
      have hqB : qualifiesB ts f = false := by simp [qualifiesB, hfrd]
      rw [List.filter_cons_of_neg (by simp [hqA]), List.filter_cons_of_neg (by simp [hqB])]
      exact ih mA mB ts

/-- C9: in the discovery step, within each scheme at most one file
participates per extracted timestamp, namely the last qualifying file in
directory-listing order: the lookup of either map returns exactly the last
file of the listing that ends in `.frd`, extracts that timestamp, and
belongs to the scheme (starts with `D` for AVAPS, does not for ACS). -/
theorem claim9_last_file_wins (files : List (List Char)) (ts : List Char) :
    (collectFiles files).1 ts = (files.filter (qualifiesA ts)).getLast? ∧
    (collectFiles files).2 ts = (files.filter (qualifiesB ts)).getLast? := by
  obtain ⟨h1, h2⟩ := collectFrom_spec files (fun _ => none) (fun _ => none) ts
  exact ⟨by rw [collectFiles, h1, orFallback_none],
    by rw [collectFiles, h2, orFallback_none]⟩

/-! ## Claim C10: the extension check of the scheme-A pattern -/

/-- A scheme-A-shaped filename `D<date>_<time>_PQC.<ext>`. -/
def mkAvapsName (d8 t6 ext : List Char) : List Char :=
  'D' :: (d8 ++ '_' :: (t6 ++ ('_' :: 'P' :: 'Q' :: 'C' :: '.' :: ext)))

theorem matchDigits_exact (ds r : List Char) (h : ∀ c ∈ ds, c.isDigit = true) :
    matchDigits ds.length (ds ++ r) = some (ds, r) := by
  induction ds with
  | nil => rfl
  | cons c cs ih =>
    have hc : c.isDigit = true := h c (List.mem_cons_self c cs)
    have h' : ∀ x ∈ cs, x.isDigit = true := fun x hx => h x (List.mem_cons_of_mem c hx)
    simp [matchDigits, hc, ih h']

theorem matchLit_self (p r : List Char) : matchLit p (p ++ r) = some r := by
  induction p with
  | nil => rfl
  | cons c cs ih => simp [matchLit, ih]

theorem matchLit_append (a b cs : List Char) :
    matchLit (a ++ b) cs =
      match matchLit a cs with
      | some r => matchLit b r
      | none => none := by
  induction a generalizing cs with
  | nil => rfl
  | cons c cs' ih =>
    cases cs with
    | nil => rfl
    | cons x xs =>
      simp only [List.cons_append, matchLit]
      by_cases hx : x = c
      · rw [if_pos hx, if_pos hx]
        exact ih xs
      · rw [if_neg hx, if_neg hx]

theorem matchAvapsAt_mk (d8 t6 ext : List Char)
    (hd8 : d8.length = 8) (hd8d : ∀ c ∈ d8, c.isDigit = true)
    (ht6 : t6.length = 6) (ht6d : ∀ c ∈ t6, c.isDigit = true) :
    matchAvapsAt (mkAvapsName d8 t6 ext) =
      match matchLit ['f', 'r', 'd'] ext with
      | some _ => some (d8 ++ '_' :: t6)
      | none => none := by
  have h8 : matchDigits 8 (d8 ++ '_' :: (t6 ++ ('_' :: 'P' :: 'Q' :: 'C' :: '.' :: ext))) =
      some (d8, '_' :: (t6 ++ ('_' :: 'P' :: 'Q' :: 'C' :: '.' :: ext))) := by
    have := matchDigits_exact d8 ('_' :: (t6 ++ ('_' :: 'P' :: 'Q' :: 'C' :: '.' :: ext))) hd8d
    rwa [hd8] at this
  have h6 : matchDigits 6 (t6 ++ ('_' :: 'P' :: 'Q' :: 'C' :: '.' :: ext)) =
      some (t6, '_' :: 'P' :: 'Q' :: 'C' :: '.' :: ext) := by
    have := matchDigits_exact t6 ('_' :: 'P' :: 'Q' :: 'C' :: '.' :: ext) ht6d
    rwa [ht6] at this
  have hlit : matchLit pqcFrd ('_' :: 'P' :: 'Q' :: 'C' :: '.' :: ext) =
      matchLit ['f', 'r', 'd'] ext := by
    have hsplit : pqcFrd = ['_', 'P', 'Q', 'C', '.'] ++ ['f', 'r', 'd'] := rfl
    have htail : '_' :: 'P' :: 'Q' :: 'C' :: '.' :: ext =
        ['_', 'P', 'Q', 'C', '.'] ++ ext := rfl
    rw [hsplit, htail, matchLit_append, matchLit_self]
  simp only [mkAvapsName, matchAvapsAt, if_pos rfl, h8, h6, hlit]
  simp

theorem digit_ne_D {c : Char} (h : c.isDigit = true) : c ≠ 'D' := by
  intro hc
  subst hc
  exact absurd h (by decide)

theorem matchAvapsAt_not_D (c : Char) (rest : List Char) (h : c ≠ 'D') :
    matchAvapsAt (c :: rest) = none := by
  simp [matchAvapsAt, h]

theorem searchAvaps_skip (p e : List Char) (h : ∀ c ∈ p, c ≠ 'D') :
    searchAvaps (p ++ e) = searchAvaps e := by
  induction p with
  | nil => rfl
  | cons c cs ih =>
    have hc : c ≠ 'D' := h c (List.mem_cons_self c cs)
    have h' : ∀ x ∈ cs, x ≠ 'D' := fun x hx => h x (List.mem_cons_of_mem c hx)
    have hstep : searchAvaps ((c :: cs) ++ e) = searchAvaps (cs ++ e) := by
      rw [List.cons_append]
      simp only [searchAvaps, matchAvapsAt_not_D c (cs ++ e) hc]
    rw [hstep, ih h']

/-- C10 (amended): for a filename `D<8-digit-date>_<6-digit-time>_PQC.<ext>`,
the scheme-A pattern is accepted exactly when the extension *begins with*
`frd` (because `re.search` is unanchored, `.frdx` or `.frd.bak` also match);
when the extension does not begin with `frd`, the extension itself contains
no scheme-A pattern, and the name contains no scheme-B time fragment, the
result is `none`. -/
theorem claim10_extension_behavior (d8 t6 ext : List Char)
    (hd8 : d8.length = 8) (hd8d : ∀ c ∈ d8, c.isDigit = true)
    (ht6 : t6.length = 6) (ht6d : ∀ c ∈ t6, c.isDigit = true) :
    (∀ r, matchLit ['f', 'r', 'd'] ext = some r →
      extract_timestamp (mkAvapsName d8 t6 ext) = some (d8 ++ '_' :: t6)) ∧
    (matchLit ['f', 'r', 'd'] ext = none → searchAvaps ext = none →
      searchAcsTime (mkAvapsName d8 t6 ext) = none →
      extract_timestamp (mkAvapsName d8 t6 ext) = none) := by
  have hmk := matchAvapsAt_mk d8 t6 ext hd8 hd8d ht6 ht6d
  constructor
  · intro r hr
    rw [hr] at hmk
    have hsearch : searchAvaps (mkAvapsName d8 t6 ext) = some (d8 ++ '_' :: t6) := by
      simp only [mkAvapsName] at hmk ⊢
      simp only [searchAvaps, hmk]
    simp [extract_timestamp, hsearch]
  · intro hr hext hacs
    rw [hr] at hmk
    have htail : d8 ++ '_' :: (t6 ++ ('_' :: 'P' :: 'Q' :: 'C' :: '.' :: ext)) =
        (d8 ++ '_' :: (t6 ++ ['_', 'P', 'Q', 'C', '.'])) ++ ext := by
      simp [List.append_assoc]
    have hnoD : ∀ c ∈ d8 ++ '_' :: (t6 ++ ['_', 'P', 'Q', 'C', '.']), c ≠ 'D' := by
      intro c hcmem
      rcases List.mem_append.mp hcmem with hcd | hcrest
      · exact digit_ne_D (hd8d c hcd)
      · rcases List.mem_cons.mp hcrest with hcu | hct
        · subst hcu
          decide
        · rcases List.mem_append.mp hct with hct6 | hclit
          · exact digit_ne_D (ht6d c hct6)
          · fin_cases hclit <;> decide
    have hsearch : searchAvaps (mkAvapsName d8 t6 ext) = none := by
      simp only [mkAvapsName]
      rw [show ('D' :: (d8 ++ '_' :: (t6 ++ ('_' :: 'P' :: 'Q' :: 'C' :: '.' :: ext)))) =
        'D' :: ((d8 ++ '_' :: (t6 ++ ['_', 'P', 'Q', 'C', '.'])) ++ ext) from by rw [← htail]]
      simp only [searchAvaps]
      rw [show 'D' :: ((d8 ++ '_' :: (t6 ++ ['_', 'P', 'Q', 'C', '.'])) ++ ext) =
        mkAvapsName d8 t6 ext from by simp [mkAvapsName, List.append_assoc], hmk,
        searchAvaps_skip _ _ hnoD, hext]
    simp [extract_timestamp, hsearch, hacs]

/-- C10 (counterexample): the filename `D20230101_120000_PQC.frdx` has
extension `frdx`, not `frd`, and contains no scheme-B fragment, yet
`extract_timestamp` accepts it (the regular expression is unanchored, so
`...PQC.frd` matches inside `...PQC.frdx`). -/
theorem claim10_counterexample :
    searchAcsTime ("D20230101_120000_PQC.frdx".toList) = none ∧
    searchAcsDate ("D20230101_120000_PQC.frdx".toList) = none ∧
    extract_timestamp ("D20230101_120000_PQC.frdx".toList) =
      some ("20230101_120000".toList) := by
  refine ⟨?_, ?_, ?_⟩ <;> decide

/-- C10 (witness): with the honest extension `txt` the name is rejected. -/
theorem claim10_witness :
    extract_timestamp (mkAvapsName "20230101".toList "120000".toList "txt".toList) = none :=
  (claim10_extension_behavior "20230101".toList "120000".toList "txt".toList
    (by decide) (by decide) (by decide) (by decide)).2 (by decide) (by decide) (by decide)

end CompareFrd
